import Mathlib

/-!
Shallow embedding of the remoc chmux per-port receiver state machine
(src/remop/src/chmux/receiver.rs) and of the serialization callback of the
local-remote channel sender (src/chser/src/lr/sender.rs), together with
proofs about them.

Machine integers: Rust `usize` is modelled as `Nat` together with an explicit
2^64 bound at the single place the source performs a checked addition
(`DataBuf::try_push` uses `checked_add`); everywhere else the source code
cannot overflow without first failing that check.  `Bytes` is modelled as a
list of bytes (`List Nat`); the receiver never inspects byte values.

The inbound message queue (`mpsc::UnboundedReceiver<PortReceiveMsg>` in the
source) is modelled as an explicit `List PortReceiveMsg` threaded through the
receive operations, plus a flag `engineDown` telling whether the sending side
of the queue has been dropped (so that `rx.recv()` returns `None` once the
list is exhausted).  An operation that would suspend forever (empty queue,
engine alive) returns the `blocked` outcome.

Credit bookkeeping (`ChannelCreditReturner`, whose module is not among the
embedded sources) only mutates the credit returner and the outgoing event
queue; it affects neither the values returned by the receive operations nor
any receiver field modelled here, so its calls are not represented.
-/

namespace Chmux

/-- Byte strings (`bytes::Bytes` in the source). -/
abbrev Bytes := List Nat

/-- A port open request (`chmux::Request`).  The receiver treats requests as
opaque values, so they are modelled by an opaque identifier. -/
abbrev Request := Nat

/-- Largest value of a Rust `usize` on a 64-bit target. -/
def USIZE_MAX : Nat := 2 ^ 64 - 1

/-- Rust `usize::checked_add`. -/
def checkedAdd (a b : Nat) : Option Nat :=
  if a + b ≤ USIZE_MAX then some (a + b) else none

/-- A buffer containing received data (`DataBuf` in receiver.rs):
a deque of byte buffers plus the total number of remaining bytes. -/
structure DataBuf where
  bufs : List Bytes
  remaining : Nat
deriving DecidableEq

/-- Construction `DataBuf::new`. -/
def DataBuf.new : DataBuf := { bufs := [], remaining := 0 }

/-- Construction `impl From<Bytes> for DataBuf`. -/
def DataBuf.ofBytes (data : Bytes) : DataBuf :=
  { bufs := [data], remaining := data.length }

/-- Operation `DataBuf::try_push`: append a buffer if the checked sum of the
new total succeeds and stays within `max_size`; otherwise return the buffer. -/
def DataBuf.try_push (db : DataBuf) (buf : Bytes) (max_size : Nat) : Except Bytes DataBuf :=
  match checkedAdd db.remaining buf.length with
  | some new_size =>
    if new_size ≤ max_size then
      .ok { bufs := db.bufs ++ [buf], remaining := new_size }
    else
      .error buf
  | none => .error buf

/-- Loop of `impl Buf for DataBuf :: advance`.  `none` models the
`panic!("cannot advance beyond end of data")` branch.  Natural subtraction
models the source's `usize` subtractions, which never underflow while the
`remaining` invariant holds and `cnt` does not exceed `remaining`. -/
def advanceLoop : List Bytes → Nat → Nat → Option (List Bytes × Nat)
  | bufs, remaining, 0 => some (bufs, remaining)
  | [], _remaining, _ + 1 => none
  | buf :: rest, remaining, cnt + 1 =>
    if buf.length > cnt + 1 then
      some (buf.drop (cnt + 1) :: rest, remaining - (cnt + 1))
    else
      advanceLoop rest (remaining - buf.length) (cnt + 1 - buf.length)

/-- Operation `impl Buf for DataBuf :: advance`. -/
def DataBuf.advance (db : DataBuf) (cnt : Nat) : Option DataBuf :=
  match advanceLoop db.bufs db.remaining cnt with
  | some (bufs, remaining) => some { bufs := bufs, remaining := remaining }
  | none => none

/-- Operation `impl Buf for DataBuf :: chunk`. -/
def DataBuf.chunk (db : DataBuf) : Bytes :=
  match db.bufs with
  | buf :: _ => buf
  | [] => []

/-- Total length of a list of byte buffers. -/
def sumLens (bufs : List Bytes) : Nat := (bufs.map List.length).sum

/-- The intended `DataBuf` invariant: `remaining` equals the total length of
the buffered byte strings. -/
def DataBuf.inv (db : DataBuf) : Prop := db.remaining = sumLens db.bufs

instance (db : DataBuf) : Decidable db.inv := by
  unfold DataBuf.inv; infer_instance

/-- Container `ReceivedData` in receiver.rs (the flow-control credit it
carries is consumed by credit bookkeeping only and is not modelled). -/
structure ReceivedData where
  buf : Bytes
  first : Bool
  last : Bool
deriving DecidableEq

/-- Container `ReceivedPortRequests` in receiver.rs. -/
structure ReceivedPortRequests where
  requests : List Request
  first : Bool
  last : Bool
deriving DecidableEq

/-- Inbound message `PortReceiveMsg` in receiver.rs. -/
inductive PortReceiveMsg where
  | data (d : ReceivedData)
  | portRequests (r : ReceivedPortRequests)
  | finished
deriving DecidableEq

/-- Result type `Received` of `recv_any`. -/
inductive Received where
  | data (buf : DataBuf)
  | bigData
  | requests (reqs : List Request)
deriving DecidableEq

/-- Internal receiver state `Receiving` in receiver.rs. -/
inductive Receiving where
  | nothing
  | data (buf : DataBuf)
  | chunks (chunks : List Bytes) (completed : Bool)
  | requests (reqs : List Request)
deriving DecidableEq

/-- Whether the receiving state is a `Chunks` state. -/
def Receiving.isChunks : Receiving → Bool
  | .chunks _ _ => true
  | _ => false

/-- Whether the receiving state is a `Data` state. -/
def Receiving.isData : Receiving → Bool
  | .data _ => true
  | _ => false

/-- Error type `RecvError` in receiver.rs. -/
inductive RecvError where
  | multiplexer
  | exceedsMaxDataSize (max_size : Nat)
  | exceedsMaxPortCount (max_count : Nat)
deriving DecidableEq

/-- Error type `RecvChunkError` in receiver.rs. -/
inductive RecvChunkError where
  | multiplexer
  | cancelled
deriving DecidableEq

/-- Outcome of a receive operation: a returned value, a returned error, or
suspension forever (empty inbound queue while the engine is alive). -/
inductive Outcome (ε α : Type) where
  | ok (a : α)
  | err (e : ε)
  | blocked
deriving DecidableEq

/-- The receiver (`Receiver` in receiver.rs).  The channel handles, the
credit returner and the handle storage are not part of the modelled state;
the inbound queue is passed explicitly to each receive operation. -/
structure Receiver where
  local_port : Nat
  remote_port : Nat
  max_data_size : Nat
  max_ports : Nat
  receiving : Receiving
  closed : Bool
  finished : Bool
deriving DecidableEq

/-- Outcome of processing one inbound message inside a receive loop: either
the loop returns `out` with the receiver updated to `r`, or it continues
with the receiver updated to `r`. -/
inductive StepRes (α : Type) where
  | ret (out : α) (r : Receiver)
  | next (r : Receiver)
deriving DecidableEq

/-- Body of the `recv_chunk` loop for one freshly pulled inbound message
(receiver.rs lines 410-454).  The source merges the two accepting arms
`(Receiving::Chunks{..}, false)` and `(_, true)` into one pattern; they are
spelled as two arms with identical bodies here. -/
def recvChunkStep (r : Receiver) (msg : PortReceiveMsg) :
    StepRes (Outcome RecvChunkError (Option Bytes)) :=
  match msg with
  | .data data =>
    match r.receiving, data.first with
    | .chunks _ _, true =>
      .ret (.err .cancelled) { r with receiving := .chunks [data.buf] data.last }
    | .chunks _ _, false =>
      .ret (.ok (some data.buf)) { r with receiving := .chunks [] data.last }
    | _, true =>
      .ret (.ok (some data.buf)) { r with receiving := .chunks [] data.last }
    | _, false => .next r
  | .portRequests _ =>
    match r.receiving with
    | .chunks _ _ => .ret (.err .cancelled) { r with receiving := .nothing }
    | _ => .next r
  | .finished =>
    match r.receiving with
    | .chunks _ _ => .ret (.err .cancelled) { r with receiving := .nothing, finished := true }
    | _ => .ret (.ok none) { r with finished := true }

/-- The `recv_chunk` loop (receiver.rs lines 394-456): deliver buffered
chunks, end a completed chunk stream, otherwise pull the next inbound
message. -/
def recvChunkLoop (engineDown : Bool) :
    Receiver → List PortReceiveMsg →
      Outcome RecvChunkError (Option Bytes) × Receiver × List PortReceiveMsg
  | r, [] =>
    match r.receiving with
    | .chunks (c :: cs) comp => (.ok (some c), { r with receiving := .chunks cs comp }, [])
    | .chunks [] true => (.ok none, { r with receiving := .nothing }, [])
    | _ =>
      if engineDown then (.err .multiplexer, r, []) else (.blocked, r, [])
  | r, msg :: rest =>
    match r.receiving with
    | .chunks (c :: cs) comp =>
      (.ok (some c), { r with receiving := .chunks cs comp }, msg :: rest)
    | .chunks [] true => (.ok none, { r with receiving := .nothing }, msg :: rest)
    | _ =>
      match recvChunkStep r msg with
      | .ret out r1 => (out, r1, rest)
      | .next r1 => recvChunkLoop engineDown r1 rest

/-- Operation `Receiver::recv_chunk`. -/
def recv_chunk (r : Receiver) (q : List PortReceiveMsg) (engineDown : Bool) :
    Outcome RecvChunkError (Option Bytes) × Receiver × List PortReceiveMsg :=
  if r.finished then (.ok none, r, q) else recvChunkLoop engineDown r q

/-- Body of the `recv_any` loop for one inbound message (receiver.rs lines
468-531).  `mem::take(&mut self.receiving)` is modelled by reading the state
and resetting it to `nothing` before the `if let` match. -/
def recvAnyStep (r : Receiver) (msg : PortReceiveMsg) :
    StepRes (Outcome RecvError (Option Received)) :=
  match msg with
  | .data data =>
    let r1 := if data.first then { r with receiving := .data DataBuf.new } else r
    match r1.receiving with
    | .data data_buf =>
      let r2 := { r1 with receiving := .nothing }
      match data_buf.try_push data.buf r2.max_data_size with
      | .ok db =>
        if data.last then .ret (.ok (some (.data db))) r2
        else .next { r2 with receiving := .data db }
      | .error buf =>
        .ret (.ok (some .bigData))
          { r2 with receiving := .chunks (data_buf.bufs ++ [buf]) data.last }
    | _ => .next { r1 with receiving := .nothing }
  | .portRequests req =>
    let r1 := if req.first then { r with receiving := .requests [] } else r
    match r1.receiving with
    | .requests reqs =>
      let r2 := { r1 with receiving := .nothing }
      let requests := reqs ++ req.requests
      if requests.length > r2.max_ports then
        .ret (.err (.exceedsMaxPortCount r2.max_ports)) r2
      else if req.last then
        .ret (.ok (some (.requests requests))) r2
      else
        .next { r2 with receiving := .requests requests }
    | _ => .next { r1 with receiving := .nothing }
  | .finished => .ret (.ok none) { r with finished := true }

/-- The `recv_any` loop (receiver.rs lines 465-532). -/
def recvAnyLoop (engineDown : Bool) :
    Receiver → List PortReceiveMsg →
      Outcome RecvError (Option Received) × Receiver × List PortReceiveMsg
  | r, [] => if engineDown then (.err .multiplexer, r, []) else (.blocked, r, [])
  | r, msg :: rest =>
    match recvAnyStep r msg with
    | .ret out r1 => (out, r1, rest)
    | .next r1 => recvAnyLoop engineDown r1 rest

/-- Operation `Receiver::recv_any`. -/
def recv_any (r : Receiver) (q : List PortReceiveMsg) (engineDown : Bool) :
    Outcome RecvError (Option Received) × Receiver × List PortReceiveMsg :=
  if r.finished then (.ok none, r, q) else recvAnyLoop engineDown r q

/-- Number of chunks buffered in the receiver's `Chunks` state; part of the
termination measure of chunk draining. -/
def chunkCount (r : Receiver) : Nat :=
  match r.receiving with
  | .chunks cs _ => cs.length
  | _ => 0

/-- Outbound event relevant to the modelled operations (`PortEvt` in the
source; only the variant emitted by `Receiver::close` is needed). -/
inductive PortEvt where
  | receiverClosed (local_port : Nat)
deriving DecidableEq

/-- Operation `Receiver::close` (receiver.rs lines 537-542), returning the
updated receiver and the list of events sent to the multiplexer. -/
def Receiver.close (r : Receiver) : Receiver × List PortEvt :=
  if r.closed then (r, [])
  else ({ r with closed := true }, [.receiverClosed r.local_port])

/-- Perform `n` successive `close` calls, collecting all emitted events. -/
def closeN : Nat → Receiver → Receiver × List PortEvt
  | 0, r => (r, [])
  | n + 1, r =>
    let s1 := r.close
    let s2 := closeN n s1.1
    (s2.1, s1.2 ++ s2.2)

/-- Wire encoding of one data message split into the given chunks: the first
chunk carries `first = true`, the final chunk carries `last = true`. -/
def encodeChunks : List Bytes → Bool → List PortReceiveMsg
  | [], _ => []
  | [b], isFirst => [.data { buf := b, first := isFirst, last := true }]
  | b :: b2 :: rest, isFirst =>
    .data { buf := b, first := isFirst, last := false } :: encodeChunks (b2 :: rest) false

/-- Wire encoding of a complete data message. -/
def encodeData (bufs : List Bytes) : List PortReceiveMsg :=
  encodeChunks bufs true

/-- Result of draining a chunk stream with repeated `recv_chunk` calls. -/
structure DrainResult where
  collected : List Bytes
  outcome : Outcome RecvChunkError Unit
  state : Receiver
  rest : List PortReceiveMsg
deriving DecidableEq

/-- Iterated application of `recv_any`: the outcome, receiver and queue after
`n` previous `recv_any` calls followed by one more call. -/
def iterRecvAny (engineDown : Bool) :
    Nat → Receiver → List PortReceiveMsg →
      Outcome RecvError (Option Received) × Receiver × List PortReceiveMsg
  | 0, r, q => recv_any r q engineDown
  | n + 1, r, q =>
    let s := recv_any r q engineDown
    iterRecvAny engineDown n s.2.1 s.2.2

/-- Modelled from the spec's description of `recv`: how a single `recv_any`
result is surfaced by `recv` — `Data(buf)` becomes `Ok(Some(buf))`,
`BigData` becomes `ExceedsMaxDataSize(max_data_size)` for the receiver's
current limit, `None` becomes `Ok(None)`, errors pass through.  The
`Requests` case is never reached under the side condition of the theorem
using this definition. -/
def interpRecvAny :
    Outcome RecvError (Option Received) × Receiver × List PortReceiveMsg →
      Outcome RecvError (Option DataBuf) × Receiver × List PortReceiveMsg
  | (.ok (some (.data b)), r, q) => (.ok (some b), r, q)
  | (.ok (some .bigData), r, q) => (.err (.exceedsMaxDataSize r.max_data_size), r, q)
  | (.ok (some (.requests _)), r, q) => (.ok none, r, q)
  | (.ok none, r, q) => (.ok none, r, q)
  | (.err e, r, q) => (.err e, r, q)
  | (.blocked, r, q) => (.blocked, r, q)

/-- Steps, in program order, of the async callback that the `Serialize`
implementation of the local-remote channel `Sender` passes to
`PortSerializer::connect` (src/chser/src/lr/sender.rs lines 74-88): it first
fires the interlock confirmation obtained from `start_send`, then awaits the
`connect` future, then delivers the resulting raw endpoint (or the connect
error) over `receiver_tx`. -/
inductive SenderSerializeStep where
  | fireInterlockConfirm
  | awaitConnect
  | deliverResult
deriving DecidableEq, BEq

/-- The callback's steps as written in the source. -/
def senderSerializeCallback : List SenderSerializeStep :=
  [.fireInterlockConfirm, .awaitConnect, .deliverResult]

/-- Position of a step in the serialization callback. -/
def stepIndex (s : SenderSerializeStep) : Nat :=
  senderSerializeCallback.indexOf s

/-! Termination lemmas needed to define `recv` and `drainChunks`, which
iterate `recv_any` and `recv_chunk` over the inbound queue. -/

/-- Whenever the `recv_any` loop returns a value, it has consumed at least
one inbound message. -/
theorem recvAnyLoop_some_lt (d : Bool) :
    ∀ (q : List PortReceiveMsg) (r : Receiver) (x : Received) r' q',
      recvAnyLoop d r q = (.ok (some x), r', q') → q'.length < q.length := by
  intro q
  induction q with
  | nil =>
    intro r x r' q' h
    cases d <;> simp [recvAnyLoop] at h
  | cons msg rest ih =>
    intro r x r' q' h
    simp only [recvAnyLoop] at h
    cases hstep : recvAnyStep r msg with
    | ret out r1 =>
      rw [hstep] at h
      simp only [Prod.mk.injEq] at h
      simp [← h.2.2]
    | next r1 =>
      rw [hstep] at h
      exact Nat.lt_trans (ih r1 x r' q' h) (by simp)

/-- Whenever `recv_any` returns a value, it has consumed at least one
inbound message. -/
theorem recv_any_some_lt {r : Receiver} {q : List PortReceiveMsg} {d : Bool}
    {x : Received} {r' : Receiver} {q' : List PortReceiveMsg}
    (h : recv_any r q d = (.ok (some x), r', q')) : q'.length < q.length := by
  unfold recv_any at h
  split at h
  · simp at h
  · exact recvAnyLoop_some_lt d q r x r' q' h

/-- A `next` result of the `recv_chunk` loop body leaves the receiver
unchanged. -/
theorem recvChunkStep_next {r : Receiver} {msg : PortReceiveMsg} {r1 : Receiver}
    (h : recvChunkStep r msg = .next r1) : r1 = r := by
  cases msg with
  | data data =>
    rcases hr : r.receiving with _ | db | ⟨cs, comp⟩ | reqs <;>
      cases hf : data.first <;> simp_all [recvChunkStep]
  | portRequests req =>
    rcases hr : r.receiving with _ | db | ⟨cs, comp⟩ | reqs <;> simp_all [recvChunkStep]
  | finished =>
    rcases hr : r.receiving with _ | db | ⟨cs, comp⟩ | reqs <;> simp_all [recvChunkStep]

/-- A chunk returned by the `recv_chunk` loop body leaves no buffered
chunks behind. -/
theorem recvChunkStep_ok_some {r : Receiver} {msg : PortReceiveMsg} {c : Bytes} {r1 : Receiver}
    (h : recvChunkStep r msg = .ret (.ok (some c)) r1) : chunkCount r1 = 0 := by
  cases msg with
  | data data =>
    rcases hr : r.receiving with _ | db | ⟨cs, comp⟩ | reqs <;>
      cases hf : data.first <;> simp_all [recvChunkStep] <;>
      simp [chunkCount, ← h.2]
  | portRequests req =>
    rcases hr : r.receiving with _ | db | ⟨cs, comp⟩ | reqs <;> simp_all [recvChunkStep]
  | finished =>
    rcases hr : r.receiving with _ | db | ⟨cs, comp⟩ | reqs <;> simp_all [recvChunkStep]

/-- Whenever the `recv_chunk` loop returns a chunk, the combined measure of
queued messages and buffered chunks strictly decreases. -/
theorem recvChunkLoop_measure (d : Bool) :
    ∀ (q : List PortReceiveMsg) (r : Receiver) (c : Bytes) r' q',
      recvChunkLoop d r q = (.ok (some c), r', q') →
      q'.length + chunkCount r' < q.length + chunkCount r := by
  intro q
  induction q with
  | nil =>
    intro r c r' q' h
    simp only [recvChunkLoop] at h
    rcases hr : r.receiving with _ | db | ⟨cs, comp⟩ | reqs <;> rw [hr] at h
    · cases d <;> simp_all
    · cases d <;> simp_all
    · rcases cs with _ | ⟨c0, cs⟩
      · cases comp
        · cases d <;> simp_all
        · simp_all
      · simp only [Prod.mk.injEq, Outcome.ok.injEq, Option.some.injEq] at h
        obtain ⟨h1, h2, h3⟩ := h
        subst h2 h3
        simp [chunkCount, hr]
    · cases d <;> simp_all
  | cons msg rest ih =>
    intro r c r' q' h
    simp only [recvChunkLoop] at h
    have hcc : ∀ (h0 : chunkCount r = 0),
        (match recvChunkStep r msg with
          | .ret out r1 => (out, r1, rest)
          | .next r1 => recvChunkLoop d r1 rest) = (.ok (some c), r', q') →
        q'.length + chunkCount r' < (msg :: rest).length + chunkCount r := by
      intro h0 hm
      cases hstep : recvChunkStep r msg with
      | ret out r1 =>
        rw [hstep] at hm
        simp only [Prod.mk.injEq] at hm
        obtain ⟨h1, h2, h3⟩ := hm
        subst h1 h2 h3
        have := recvChunkStep_ok_some hstep
        simp [this, h0]
      | next r1 =>
        rw [hstep] at hm
        have hr1 := recvChunkStep_next hstep
        rw [hr1] at hm
        have := ih r c r' q' hm
        simp only [List.length_cons]
        omega
    rcases hr : r.receiving with _ | db | ⟨cs, comp⟩ | reqs <;> rw [hr] at h
    · exact hcc (by simp [chunkCount, hr]) h
    · exact hcc (by simp [chunkCount, hr]) h
    · rcases cs with _ | ⟨c0, cs⟩
      · cases comp
        · exact hcc (by simp [chunkCount, hr]) h
        · simp_all
      · simp only [Prod.mk.injEq, Outcome.ok.injEq, Option.some.injEq] at h
        obtain ⟨h1, h2, h3⟩ := h
        subst h2 h3
        simp [chunkCount, hr]
    · exact hcc (by simp [chunkCount, hr]) h

/-- Whenever `recv_chunk` returns a chunk, the combined measure of queued
messages and buffered chunks strictly decreases. -/
theorem recv_chunk_measure {r : Receiver} {q : List PortReceiveMsg} {d : Bool}
    {c : Bytes} {r' : Receiver} {q' : List PortReceiveMsg}
    (h : recv_chunk r q d = (.ok (some c), r', q')) :
    q'.length + chunkCount r' < q.length + chunkCount r := by
  unfold recv_chunk at h
  split at h
  · simp at h
  · exact recvChunkLoop_measure d q r c r' q' h

/-- Operation `Receiver::recv` (receiver.rs lines 375-384): repeat
`recv_any`, surfacing data, mapping `BigData` to `ExceedsMaxDataSize` with
the receiver's current limit, and silently skipping port open requests. -/
def recv (r : Receiver) (q : List PortReceiveMsg) (engineDown : Bool) :
    Outcome RecvError (Option DataBuf) × Receiver × List PortReceiveMsg :=
  match h : recv_any r q engineDown with
  | (.ok (some (.data dbuf)), r', q') => (.ok (some dbuf), r', q')
  | (.ok (some .bigData), r', q') => (.err (.exceedsMaxDataSize r'.max_data_size), r', q')
  | (.ok (some (.requests _)), r', q') => recv r' q' engineDown
  | (.ok none, r', q') => (.ok none, r', q')
  | (.err e, r', q') => (.err e, r', q')
  | (.blocked, r', q') => (.blocked, r', q')
termination_by q.length
decreasing_by exact recv_any_some_lt h

/-- Repeated `recv_chunk` until it stops returning chunks, collecting the
returned chunks and recording the terminating outcome (`ok ()` stands for a
final `Ok(None)`). -/
def drainChunks (r : Receiver) (q : List PortReceiveMsg) (engineDown : Bool) : DrainResult :=
  match h : recv_chunk r q engineDown with
  | (.ok (some c), r', q') =>
    let res := drainChunks r' q' engineDown
    { res with collected := c :: res.collected }
  | (.ok none, r', q') => ⟨[], .ok (), r', q'⟩
  | (.err e, r', q') => ⟨[], .err e, r', q'⟩
  | (.blocked, r', q') => ⟨[], .blocked, r', q'⟩
termination_by q.length + chunkCount r
decreasing_by exact recv_chunk_measure h

/-! Unfolding and preservation lemmas. -/

/-- Unfolding equation of `recvChunkLoop` that does not require the queue's
head constructor to be known. -/
theorem recvChunkLoop_eq (d : Bool) (r : Receiver) (q : List PortReceiveMsg) :
    recvChunkLoop d r q =
      match r.receiving with
      | .chunks (c :: cs) comp => (.ok (some c), { r with receiving := .chunks cs comp }, q)
      | .chunks [] true => (.ok none, { r with receiving := .nothing }, q)
      | _ =>
        match q with
        | [] => if d then (.err .multiplexer, r, []) else (.blocked, r, [])
        | msg :: rest =>
          match recvChunkStep r msg with
          | .ret out r1 => (out, r1, rest)
          | .next r1 => recvChunkLoop d r1 rest := by
  obtain ⟨lp, rp, mds, mp, rv, cl, fin⟩ := r
  rcases q with _ | ⟨msg, rest⟩ <;>
    rcases rv with _ | db | ⟨_ | ⟨c0, cs⟩, _ | _⟩ | reqs <;> rfl

/-- Unfolding of `drainChunks` when `recv_chunk` returns no chunk. -/
theorem drainChunks_none {r : Receiver} {q : List PortReceiveMsg} {d : Bool}
    {r' : Receiver} {q' : List PortReceiveMsg}
    (h : recv_chunk r q d = (.ok none, r', q')) :
    drainChunks r q d = ⟨[], .ok (), r', q'⟩ := by
  rw [drainChunks]
  split <;> simp_all

/-- Unfolding of `drainChunks` when `recv_chunk` returns a chunk. -/
theorem drainChunks_some {r : Receiver} {q : List PortReceiveMsg} {d : Bool}
    {c : Bytes} {r' : Receiver} {q' : List PortReceiveMsg}
    (h : recv_chunk r q d = (.ok (some c), r', q')) :
    drainChunks r q d =
      { drainChunks r' q' d with collected := c :: (drainChunks r' q' d).collected } := by
  rw [drainChunks]
  split <;> simp_all

/-- Unfolding of `recv` when `recv_any` returns port open requests. -/
theorem recv_eq_requests {r : Receiver} {q : List PortReceiveMsg} {d : Bool}
    {l : List Request} {r' : Receiver} {q' : List PortReceiveMsg}
    (h : recv_any r q d = (.ok (some (.requests l)), r', q')) :
    recv r q d = recv r' q' d := by
  rw [recv]
  split <;> simp_all

/-- Unfolding of `recv` when `recv_any` returns a data buffer. -/
theorem recv_eq_data {r : Receiver} {q : List PortReceiveMsg} {d : Bool}
    {b : DataBuf} {r' : Receiver} {q' : List PortReceiveMsg}
    (h : recv_any r q d = (.ok (some (.data b)), r', q')) :
    recv r q d = (.ok (some b), r', q') := by
  rw [recv]
  split <;> simp_all

/-- Unfolding of `recv` when `recv_any` reports oversize data. -/
theorem recv_eq_bigData {r : Receiver} {q : List PortReceiveMsg} {d : Bool}
    {r' : Receiver} {q' : List PortReceiveMsg}
    (h : recv_any r q d = (.ok (some .bigData), r', q')) :
    recv r q d = (.err (.exceedsMaxDataSize r'.max_data_size), r', q') := by
  rw [recv]
  split <;> simp_all

/-- Unfolding of `recv` when `recv_any` reports end of stream. -/
theorem recv_eq_none {r : Receiver} {q : List PortReceiveMsg} {d : Bool}
    {r' : Receiver} {q' : List PortReceiveMsg}
    (h : recv_any r q d = (.ok none, r', q')) :
    recv r q d = (.ok none, r', q') := by
  rw [recv]
  split <;> simp_all

/-- Unfolding of `recv` when `recv_any` fails. -/
theorem recv_eq_err {r : Receiver} {q : List PortReceiveMsg} {d : Bool}
    {e : RecvError} {r' : Receiver} {q' : List PortReceiveMsg}
    (h : recv_any r q d = (.err e, r', q')) :
    recv r q d = (.err e, r', q') := by
  rw [recv]
  split <;> simp_all

/-- Unfolding of `recv` when `recv_any` would suspend forever. -/
theorem recv_eq_blocked {r : Receiver} {q : List PortReceiveMsg} {d : Bool}
    {r' : Receiver} {q' : List PortReceiveMsg}
    (h : recv_any r q d = (.blocked, r', q')) :
    recv r q d = (.blocked, r', q') := by
  rw [recv]
  split <;> simp_all

/-- A sample receiver for concrete instantiations. -/
def sampleReceiver (rcv : Receiving) (maxd maxp : Nat) : Receiver :=
  { local_port := 1, remote_port := 2, max_data_size := maxd, max_ports := maxp,
    receiving := rcv, closed := false, finished := false }

/-- Calling `close` on an already closed receiver changes nothing and emits
nothing, no matter how often it is repeated. -/
theorem closeN_closed : ∀ (n : Nat) (r : Receiver), r.closed = true → closeN n r = (r, []) := by
  intro n
  induction n with
  | zero => intro r h; rfl
  | succ m ih =>
    intro r h
    simp [closeN, Receiver.close, h, ih r h]

@[simp] theorem sumLens_nil : sumLens [] = 0 := rfl

@[simp] theorem sumLens_cons (b : Bytes) (bufs : List Bytes) :
    sumLens (b :: bufs) = b.length + sumLens bufs := by
  simp [sumLens]

theorem sumLens_append (xs ys : List Bytes) :
    sumLens (xs ++ ys) = sumLens xs + sumLens ys := by
  simp [sumLens]

/-- A push whose new total exceeds `max_size` fails and hands the buffer
back (either because the checked addition fails or because the bound check
fails). -/
theorem try_push_overflow {db : DataBuf} {b : Bytes} {max_size : Nat}
    (hmax : max_size ≤ USIZE_MAX) (hover : max_size < db.remaining + b.length) :
    db.try_push b max_size = .error b := by
  unfold DataBuf.try_push checkedAdd
  rcases le_or_lt (db.remaining + b.length) USIZE_MAX with hle | hgt
  · rw [if_pos hle]
    simp only []
    rw [if_neg (by omega)]
  · rw [if_neg (by omega)]

/-- A push within the bound succeeds when the bound itself is representable. -/
theorem try_push_fits {db : DataBuf} {b : Bytes} {max_size : Nat}
    (hmax : max_size ≤ USIZE_MAX) (hfit : db.remaining + b.length ≤ max_size) :
    db.try_push b max_size =
      .ok { bufs := db.bufs ++ [b], remaining := db.remaining + b.length } := by
  unfold DataBuf.try_push checkedAdd
  rw [if_pos (by omega)]
  simp only []
  rw [if_pos hfit]

/-- Advancing through buffers whose recorded total is accurate never hits the
panic branch and keeps the total accurate. -/
theorem advanceLoop_spec :
    ∀ (bufs : List Bytes) (rem cnt : Nat), rem = sumLens bufs → cnt ≤ rem →
      ∃ bufs', advanceLoop bufs rem cnt = some (bufs', rem - cnt) ∧
        sumLens bufs' = rem - cnt := by
  intro bufs
  induction bufs with
  | nil =>
    intro rem cnt hrem hle
    simp only [sumLens_nil] at hrem
    subst hrem
    have hz : cnt = 0 := Nat.le_zero.mp hle
    subst hz
    exact ⟨[], by simp [advanceLoop], by simp⟩
  | cons b rest ih =>
    intro rem cnt hrem hle
    cases cnt with
    | zero => exact ⟨b :: rest, by simp [advanceLoop], by simp [hrem.symm]⟩
    | succ k =>
      simp only [sumLens_cons] at hrem
      by_cases hb : b.length > k + 1
      · refine ⟨b.drop (k + 1) :: rest, ?_, ?_⟩
        · simp [advanceLoop, hb]
        · simp only [sumLens_cons, List.length_drop]
          omega
      · push_neg at hb
        have hrest : rem - b.length = sumLens rest := by omega
        obtain ⟨bufs', heq, hsum⟩ :=
          ih (rem - b.length) (k + 1 - b.length) hrest (by omega)
        refine ⟨bufs', ?_, by rw [hsum]; omega⟩
        have harith : rem - b.length - (k + 1 - b.length) = rem - (k + 1) := by omega
        simp only [advanceLoop, if_neg (by omega : ¬ b.length > k + 1)]
        rw [heq, harith]

/-- Receiver carried by a loop-step result. -/
def stepReceiver {α : Type} : StepRes α → Receiver
  | .ret _ r => r
  | .next r => r

/-- One `recv_any` loop step never changes the configured limits or the
local and remote port of the receiver. -/
theorem recvAnyStep_preserves (r : Receiver) (msg : PortReceiveMsg) :
    (stepReceiver (recvAnyStep r msg)).max_ports = r.max_ports ∧
    (stepReceiver (recvAnyStep r msg)).max_data_size = r.max_data_size := by
  cases msg <;> simp only [recvAnyStep] <;> repeat' split
  all_goals simp [stepReceiver]

/-- A `Requests` value returned by one `recv_any` loop step satisfies the
`max_ports` bound of the receiver. -/
theorem recvAnyStep_requests_le {r : Receiver} {msg : PortReceiveMsg}
    {l : List Request} {r1 : Receiver}
    (h : recvAnyStep r msg = .ret (.ok (some (.requests l))) r1) :
    l.length ≤ r.max_ports := by
  cases msg <;> simp only [recvAnyStep] at h <;> repeat' split at h
  all_goals simp_all
  all_goals
    obtain ⟨h1, h2⟩ := h
    subst h1
    simp only [List.length_append]
    omega

/-- Any `Requests` list returned by the `recv_any` loop satisfies the
`max_ports` bound of the receiver the loop started from. -/
theorem recvAnyLoop_requests_bound (d : Bool) :
    ∀ (q : List PortReceiveMsg) (r : Receiver) (l : List Request) r' q',
      recvAnyLoop d r q = (.ok (some (.requests l)), r', q') →
      l.length ≤ r.max_ports := by
  intro q
  induction q with
  | nil =>
    intro r l r' q' h
    cases d <;> simp [recvAnyLoop] at h
  | cons msg rest ih =>
    intro r l r' q' h
    simp only [recvAnyLoop] at h
    cases hstep : recvAnyStep r msg with
    | ret out r1 =>
      rw [hstep] at h
      simp only [Prod.mk.injEq] at h
      exact recvAnyStep_requests_le (h.1 ▸ hstep)
    | next r1 =>
      rw [hstep] at h
      have hmp : r1.max_ports = r.max_ports := by
        have := (recvAnyStep_preserves r msg).1
        rw [hstep] at this
        simpa [stepReceiver] using this
      have := ih r1 l r' q' h
      omega

/-- Any `Requests` list returned by `recv_any` satisfies the `max_ports`
bound of the receiver. -/
theorem recv_any_requests_bound {r : Receiver} {q : List PortReceiveMsg} {d : Bool}
    {l : List Request} {r' : Receiver} {q' : List PortReceiveMsg}
    (h : recv_any r q d = (.ok (some (.requests l)), r', q')) :
    l.length ≤ r.max_ports := by
  unfold recv_any at h
  split at h
  · simp at h
  · exact recvAnyLoop_requests_bound d q r l r' q' h

@[simp] theorem DataBuf_new_bufs : DataBuf.new.bufs = [] := rfl

@[simp] theorem DataBuf_new_remaining : DataBuf.new.remaining = 0 := rfl

/-- On an unfinished receiver, `recv_any` enters its loop. -/
theorem recv_any_not_finished {r : Receiver} {q : List PortReceiveMsg} {d : Bool}
    (hfin : r.finished = false) : recv_any r q d = recvAnyLoop d r q := by
  simp [recv_any, hfin]

/-! Claim theorems. -/

/-- C2 counterexample: with `max_data_size = 1`, a message of two one-byte
chunks overflows at the second chunk; `recv_any` returns `BigData` but the
stored chunk queue holds both chunks, not only the overflowing one. -/
theorem c2_counterexample :
    (recv_any (sampleReceiver .nothing 1 10)
        [.data ⟨[97], true, false⟩, .data ⟨[98], false, true⟩] false).1 =
      .ok (some .bigData) ∧
    (recv_any (sampleReceiver .nothing 1 10)
        [.data ⟨[97], true, false⟩, .data ⟨[98], false, true⟩] false).2.1.receiving =
      .chunks [[97], [98]] true ∧
    (recv_any (sampleReceiver .nothing 1 10)
        [.data ⟨[97], true, false⟩, .data ⟨[98], false, true⟩] false).2.1.receiving ≠
      .chunks [[98]] true := by
  decide

/-- C2 (amended): in `recv_any`, when appending an incoming data chunk to the
current buffer would make the running total exceed `max_data_size`, the
receiver transitions to `Chunks{queue: buffered_chunks ++ [overflow_chunk],
completed: last}` — the queue holds all previously buffered chunks of the
message followed by the overflowing chunk — and returns `BigData`. -/
theorem c2_overflow_keeps_buffered_chunks (r : Receiver) (db : DataBuf) (b : Bytes)
    (lst : Bool) (rest : List PortReceiveMsg) (d : Bool)
    (hfin : r.finished = false) (hrec : r.receiving = .data db)
    (hmax : r.max_data_size ≤ USIZE_MAX)
    (hover : r.max_data_size < db.remaining + b.length) :
    recv_any r (.data ⟨b, false, lst⟩ :: rest) d =
      (.ok (some .bigData), { r with receiving := .chunks (db.bufs ++ [b]) lst }, rest) := by
  have hp : db.try_push b r.max_data_size = .error b := try_push_overflow hmax hover
  simp only [recv_any, hfin, Bool.false_eq_true, if_false]
  simp only [recvAnyLoop]
  simp [recvAnyStep, hrec, hp, hfin]

/-- C2 witness for the amended claim at a concrete input. -/
theorem c2_overflow_keeps_buffered_chunks_witness :
    recv_any (sampleReceiver (.data ⟨[[97]], 1⟩) 1 10) [.data ⟨[98], false, true⟩] false =
      (.ok (some .bigData),
        { sampleReceiver (.data ⟨[[97]], 1⟩) 1 10 with receiving := .chunks [[97], [98]] true },
        []) :=
  c2_overflow_keeps_buffered_chunks (sampleReceiver (.data ⟨[[97]], 1⟩) 1 10)
    ⟨[[97]], 1⟩ [98] true [] false rfl rfl (by decide) (by decide)

/-- C10: `DataBuf` maintains the invariant that `remaining` equals the sum of
the lengths of the buffers: it holds for `new` and `From<Bytes>`, is
preserved by every successful `try_push` and by `advance` for counts not
exceeding `remaining` (which also never panics), and `Buf::remaining`
reports exactly this total. -/
theorem c10_databuf_invariant :
    DataBuf.new.inv ∧
    (∀ b : Bytes, (DataBuf.ofBytes b).inv) ∧
    (∀ (db : DataBuf) (buf : Bytes) (max_size : Nat) (db' : DataBuf),
      db.inv → db.try_push buf max_size = .ok db' → db'.inv) ∧
    (∀ (db : DataBuf) (cnt : Nat), db.inv → cnt ≤ db.remaining →
      ∃ db', db.advance cnt = some db' ∧ db'.inv ∧ db'.remaining = db.remaining - cnt) ∧
    (∀ db : DataBuf, db.inv → db.remaining = sumLens db.bufs) := by
  refine ⟨by simp [DataBuf.new, DataBuf.inv], ?_, ?_, ?_, fun db h => h⟩
  · intro b
    simp [DataBuf.ofBytes, DataBuf.inv]
  · intro db buf max_size db' hinv hpush
    unfold DataBuf.try_push checkedAdd at hpush
    by_cases hle : db.remaining + buf.length ≤ USIZE_MAX
    · rw [if_pos hle] at hpush
      simp only [] at hpush
      by_cases hfit : db.remaining + buf.length ≤ max_size
      · rw [if_pos hfit] at hpush
        simp only [Except.ok.injEq] at hpush
        subst hpush
        have hinv2 : db.remaining = sumLens db.bufs := hinv
        simp [DataBuf.inv, sumLens_append, hinv2]
      · rw [if_neg hfit] at hpush
        simp at hpush
    · rw [if_neg hle] at hpush
      simp at hpush
  · intro db cnt hinv hle
    obtain ⟨bufs', heq, hsum⟩ := advanceLoop_spec db.bufs db.remaining cnt hinv hle
    exact ⟨⟨bufs', db.remaining - cnt⟩, by simp [DataBuf.advance, heq],
      by simpa [DataBuf.inv] using hsum.symm, rfl⟩

/-- C10 witness at a concrete input. -/
theorem c10_databuf_invariant_witness :
    ∃ db', (DataBuf.ofBytes [1, 2, 3]).advance 2 = some db' ∧ db'.inv ∧
      db'.remaining = (DataBuf.ofBytes [1, 2, 3]).remaining - 2 :=
  c10_databuf_invariant.2.2.2.1 (DataBuf.ofBytes [1, 2, 3]) 2 (by decide) (by decide)

/-- C3: if `recv_chunk` pulls an inbound data chunk with `first = true` while
the receiver's state is `Chunks` with no buffered chunks and the stream not
completed, it stores the new chunk as `Chunks{[chunk], completed: last}` and
returns `Cancelled`; the stored chunk is returned by the next `recv_chunk`
call. -/
theorem c3_truncation_cancels (r : Receiver) (b : Bytes) (lst : Bool)
    (rest : List PortReceiveMsg) (d : Bool)
    (hfin : r.finished = false) (hrec : r.receiving = .chunks [] false) :
    recv_chunk r (.data ⟨b, true, lst⟩ :: rest) d =
      (.err .cancelled, { r with receiving := .chunks [b] lst }, rest) ∧
    recv_chunk { r with receiving := .chunks [b] lst } rest d =
      (.ok (some b), { r with receiving := .chunks [] lst }, rest) := by
  constructor
  · simp only [recv_chunk, hfin, Bool.false_eq_true, if_false]
    rw [recvChunkLoop_eq, hrec]
    simp [recvChunkStep, hrec, hfin]
  · simp only [recv_chunk, hfin, Bool.false_eq_true, if_false]
    rw [recvChunkLoop_eq]

/-- C3 witness at a concrete input. -/
theorem c3_truncation_cancels_witness :
    recv_chunk (sampleReceiver (.chunks [] false) 4 4) [.data ⟨[9], true, true⟩] false =
      (.err .cancelled,
        { sampleReceiver (.chunks [] false) 4 4 with receiving := .chunks [[9]] true }, []) ∧
    recv_chunk { sampleReceiver (.chunks [] false) 4 4 with receiving := .chunks [[9]] true }
        [] false =
      (.ok (some [9]),
        { sampleReceiver (.chunks [] false) 4 4 with receiving := .chunks [] true }, []) :=
  c3_truncation_cancels (sampleReceiver (.chunks [] false) 4 4) [9] true [] false rfl rfl

/-- C4: consuming a `Finished` message sets the finished flag; `recv_any`
then returns `Ok(None)`, `recv_chunk` returns `Cancelled` if the state was
`Chunks` and `Ok(None)` otherwise; and once the finished flag is set, every
`recv_any` and `recv_chunk` call returns `Ok(None)` immediately, leaving the
inbound queue untouched. -/
theorem c4_finished_flag (r : Receiver) (q rest : List PortReceiveMsg) (d : Bool)
    (hfin : r.finished = false) :
    (recv_any r (.finished :: rest) d = (.ok none, { r with finished := true }, rest)) ∧
    (r.receiving = .chunks [] false →
      recv_chunk r (.finished :: rest) d =
        (.err .cancelled, { r with receiving := .nothing, finished := true }, rest)) ∧
    (r.receiving.isChunks = false →
      recv_chunk r (.finished :: rest) d = (.ok none, { r with finished := true }, rest)) ∧
    (∀ r2 : Receiver, r2.finished = true →
      recv_any r2 q d = (.ok none, r2, q) ∧ recv_chunk r2 q d = (.ok none, r2, q)) := by
  refine ⟨?_, ?_, ?_, ?_⟩
  · simp [recv_any, hfin, recvAnyLoop, recvAnyStep]
  · intro hrec
    simp only [recv_chunk, hfin, Bool.false_eq_true, if_false]
    rw [recvChunkLoop_eq, hrec]
    simp [recvChunkStep, hrec]
  · intro hrec
    simp only [recv_chunk, hfin, Bool.false_eq_true, if_false]
    rw [recvChunkLoop_eq]
    rcases hr : r.receiving with _ | db | ⟨cs, comp⟩ | reqs <;>
      simp_all [recvChunkStep, Receiving.isChunks]
  · intro r2 h2
    exact ⟨by simp [recv_any, h2], by simp [recv_chunk, h2]⟩

/-- C4 witness at a concrete input. -/
theorem c4_finished_flag_witness :
    (recv_any (sampleReceiver .nothing 4 4) [.finished] false =
      (.ok none, { sampleReceiver .nothing 4 4 with finished := true }, [])) ∧
    ((sampleReceiver .nothing 4 4).receiving = .chunks [] false →
      recv_chunk (sampleReceiver .nothing 4 4) [.finished] false =
        (.err .cancelled,
          { sampleReceiver .nothing 4 4 with receiving := .nothing, finished := true }, [])) ∧
    ((sampleReceiver .nothing 4 4).receiving.isChunks = false →
      recv_chunk (sampleReceiver .nothing 4 4) [.finished] false =
        (.ok none, { sampleReceiver .nothing 4 4 with finished := true }, [])) ∧
    (∀ r2 : Receiver, r2.finished = true →
      recv_any r2 [.finished] false = (.ok none, r2, [.finished]) ∧
      recv_chunk r2 [.finished] false = (.ok none, r2, [.finished])) :=
  c4_finished_flag (sampleReceiver .nothing 4 4) [.finished] [] false rfl

/-- C5 counterexample: the serialization callback fires the interlock
confirmation before awaiting the connect future, so the confirmation is not
fired only when the connect future resolves. -/
theorem c5_counterexample :
    ¬ (stepIndex .awaitConnect < stepIndex .fireInterlockConfirm) := by
  decide

/-- C5 (amended): in the scheduled serialization callback, the interlock
confirmation obtained from `start_send` is fired first, before the connect
future is awaited, which in turn happens before the connect result is
delivered. -/
theorem c5_confirm_fires_before_connect :
    stepIndex .fireInterlockConfirm < stepIndex .awaitConnect ∧
    stepIndex .awaitConnect < stepIndex .deliverResult := by
  decide

/-- C8: an inbound data chunk with `first = false` arriving when no matching
transmission is in progress (state not `Chunks` for `recv_chunk`, state not
`Data` for `recv_any`) is silently ignored: nothing is surfaced and the
receive loop continues with the next inbound message. -/
theorem c8_orphan_continuation_ignored (r : Receiver) (b : Bytes) (lst : Bool)
    (rest : List PortReceiveMsg) (d : Bool) (hfin : r.finished = false) :
    (r.receiving.isChunks = false →
      recv_chunk r (.data ⟨b, false, lst⟩ :: rest) d = recv_chunk r rest d) ∧
    (r.receiving.isData = false →
      recv_any r (.data ⟨b, false, lst⟩ :: rest) d =
        recv_any { r with receiving := .nothing } rest d) := by
  constructor
  · intro hnc
    simp only [recv_chunk, hfin, Bool.false_eq_true, if_false]
    rw [recvChunkLoop_eq]
    rcases hr : r.receiving with _ | db | ⟨cs, comp⟩ | reqs <;>
      simp_all [recvChunkStep, Receiving.isChunks]
  · intro hnd
    simp only [recv_any, hfin, Bool.false_eq_true, if_false]
    simp only [recvAnyLoop]
    rcases hr : r.receiving with _ | db | ⟨cs, comp⟩ | reqs <;>
      simp_all [recvAnyStep, Receiving.isData]

/-- C8 witness at a concrete input. -/
theorem c8_orphan_continuation_ignored_witness :
    ((sampleReceiver .nothing 4 4).receiving.isChunks = false →
      recv_chunk (sampleReceiver .nothing 4 4) [.data ⟨[7], false, true⟩] false =
        recv_chunk (sampleReceiver .nothing 4 4) [] false) ∧
    ((sampleReceiver .nothing 4 4).receiving.isData = false →
      recv_any (sampleReceiver .nothing 4 4) [.data ⟨[7], false, true⟩] false =
        recv_any { sampleReceiver .nothing 4 4 with receiving := .nothing } [] false) :=
  c8_orphan_continuation_ignored (sampleReceiver .nothing 4 4) [7] true [] false rfl

/-- C9: `close` is idempotent — any sequence of at least one `close` call on
an unclosed receiver emits exactly one `ReceiverClosed` event for the local
port and leaves the receiver closed; a `close` on a closed receiver emits
nothing and changes nothing. -/
theorem c9_close_idempotent (r : Receiver) (n : Nat) (hcl : r.closed = false) (hn : 1 ≤ n) :
    (closeN n r).2 = [.receiverClosed r.local_port] ∧
    (closeN n r).1 = { r with closed := true } ∧
    ({ r with closed := true } : Receiver).close = ({ r with closed := true }, []) := by
  rcases n with _ | m
  · omega
  · have hc : r.close = ({ r with closed := true }, [.receiverClosed r.local_port]) := by
      simp [Receiver.close, hcl]
    have h2 : closeN m { r with closed := true } = ({ r with closed := true }, []) :=
      closeN_closed m _ rfl
    refine ⟨?_, ?_, by simp [Receiver.close]⟩ <;> simp [closeN, hc, h2]

/-- C9 witness at a concrete input. -/
theorem c9_close_idempotent_witness :
    (closeN 3 (sampleReceiver .nothing 4 4)).2 =
      [.receiverClosed (sampleReceiver .nothing 4 4).local_port] ∧
    (closeN 3 (sampleReceiver .nothing 4 4)).1 =
      { sampleReceiver .nothing 4 4 with closed := true } ∧
    ({ sampleReceiver .nothing 4 4 with closed := true } : Receiver).close =
      ({ sampleReceiver .nothing 4 4 with closed := true }, []) :=
  c9_close_idempotent (sampleReceiver .nothing 4 4) 3 rfl (by decide)

/-- The `recv_any` loop never changes the receiver's `max_data_size`. -/
theorem recvAnyLoop_max_data (d : Bool) :
    ∀ (q : List PortReceiveMsg) (r : Receiver) out r' q',
      recvAnyLoop d r q = (out, r', q') → r'.max_data_size = r.max_data_size := by
  intro q
  induction q with
  | nil =>
    intro r out r' q' h
    cases d <;> simp [recvAnyLoop] at h <;> obtain ⟨h1, h2, h3⟩ := h <;> subst h2 <;> rfl
  | cons msg rest ih =>
    intro r out r' q' h
    simp only [recvAnyLoop] at h
    cases hstep : recvAnyStep r msg with
    | ret o r1 =>
      rw [hstep] at h
      simp only [Prod.mk.injEq] at h
      obtain ⟨h1, h2, h3⟩ := h
      rw [← h2]
      have := (recvAnyStep_preserves r msg).2
      rw [hstep] at this
      simpa [stepReceiver] using this
    | next r1 =>
      rw [hstep] at h
      have h1 := ih r1 out r' q' h
      have h2 := (recvAnyStep_preserves r msg).2
      rw [hstep] at h2
      simp only [stepReceiver] at h2
      rw [h1, h2]

/-- `recv_any` never changes the receiver's `max_data_size`. -/
theorem recv_any_max_data {r : Receiver} {q : List PortReceiveMsg} {d : Bool}
    {out : Outcome RecvError (Option Received)} {r' : Receiver} {q' : List PortReceiveMsg}
    (h : recv_any r q d = (out, r', q')) : r'.max_data_size = r.max_data_size := by
  unfold recv_any at h
  split at h
  · simp only [Prod.mk.injEq] at h
    rw [← h.2.1]
  · exact recvAnyLoop_max_data d q r out r' q' h

/-- A non-`Requests` outcome of `recv_any` is surfaced by `recv` exactly as
`interpRecvAny` describes, with zero skipped iterations. -/
theorem c7_base {r : Receiver} {q : List PortReceiveMsg} {d : Bool}
    {out : Outcome RecvError (Option Received)} {r' : Receiver} {q' : List PortReceiveMsg}
    (h : recv_any r q d = (out, r', q'))
    (hnr : ∀ l, out ≠ .ok (some (.requests l))) :
    (∀ l, (iterRecvAny d 0 r q).1 ≠ .ok (some (.requests l))) ∧
    recv r q d = interpRecvAny (iterRecvAny d 0 r q) ∧
    (iterRecvAny d 0 r q).2.1.max_data_size = r.max_data_size := by
  have hiter : iterRecvAny d 0 r q = (out, r', q') := h
  refine ⟨?_, ?_, ?_⟩
  · rw [hiter]
    intro l hc
    exact hnr l hc
  · rw [hiter]
    rcases out with a | e | _
    · rcases a with _ | x
      · rw [recv_eq_none h]; rfl
      · rcases x with b | _ | l
        · rw [recv_eq_data h]; rfl
        · rw [recv_eq_bigData h]; rfl
        · exact absurd rfl (hnr l)
    · rw [recv_eq_err h]; rfl
    · rw [recv_eq_blocked h]; rfl
  · rw [hiter]
    exact recv_any_max_data h

/-- Main induction for C7, bounded by the queue length. -/
theorem c7_aux (d : Bool) :
    ∀ (N : Nat) (r : Receiver) (q : List PortReceiveMsg), q.length ≤ N →
      ∃ n : Nat,
        (∀ k, k < n → ∃ l, (iterRecvAny d k r q).1 = .ok (some (.requests l))) ∧
        (∀ l, (iterRecvAny d n r q).1 ≠ .ok (some (.requests l))) ∧
        recv r q d = interpRecvAny (iterRecvAny d n r q) ∧
        (iterRecvAny d n r q).2.1.max_data_size = r.max_data_size := by
  intro N
  induction N with
  | zero =>
    intro r q hq
    rcases h : recv_any r q d with ⟨out, r', q'⟩
    by_cases hreq : ∃ l, out = .ok (some (.requests l))
    · obtain ⟨l, rfl⟩ := hreq
      have := recv_any_some_lt h
      omega
    · push_neg at hreq
      obtain ⟨hb1, hb2, hb3⟩ := c7_base h hreq
      exact ⟨0, fun k hk => absurd hk (by omega), hb1, hb2, hb3⟩
  | succ N ih =>
    intro r q hq
    rcases h : recv_any r q d with ⟨out, r', q'⟩
    by_cases hreq : ∃ l, out = .ok (some (.requests l))
    · obtain ⟨l, rfl⟩ := hreq
      have hlt : q'.length < q.length := recv_any_some_lt h
      obtain ⟨n, h1, h2, h3, h4⟩ := ih r' q' (by omega)
      have hstep : ∀ k, iterRecvAny d (k + 1) r q = iterRecvAny d k r' q' := by
        intro k
        simp [iterRecvAny, h]
      refine ⟨n + 1, ?_, ?_, ?_, ?_⟩
      · intro k hk
        cases k with
        | zero => exact ⟨l, by simp [iterRecvAny, h]⟩
        | succ j =>
          rw [hstep j]
          exact h1 j (by omega)
      · rw [hstep n]
        exact h2
      · rw [recv_eq_requests h, hstep n]
        exact h3
      · rw [hstep n, h4]
        exact recv_any_max_data h
    · push_neg at hreq
      obtain ⟨hb1, hb2, hb3⟩ := c7_base h hreq
      exact ⟨0, fun k hk => absurd hk (by omega), hb1, hb2, hb3⟩

/-- C6: when an accumulated port-request list exceeds `max_ports`, `recv_any`
returns `ExceedsMaxPortCount(max_ports)` and resets the state to `Nothing`,
leaving the receiver able to receive a later complete message; and every
`Requests(list)` result of `recv_any` has length at most `max_ports`. -/
theorem c6_max_ports_enforced (r : Receiver) (reqs newreqs m : List Request) (lst : Bool)
    (rest q2 : List PortReceiveMsg) (d : Bool)
    (hfin : r.finished = false) (hrec : r.receiving = .requests reqs)
    (hover : r.max_ports < reqs.length + newreqs.length) :
    recv_any r (.portRequests ⟨newreqs, false, lst⟩ :: rest) d =
      (.err (.exceedsMaxPortCount r.max_ports), { r with receiving := .nothing }, rest) ∧
    (m.length ≤ r.max_ports →
      recv_any { r with receiving := .nothing } (.portRequests ⟨m, true, true⟩ :: q2) d =
        (.ok (some (.requests m)), { r with receiving := .nothing }, q2)) ∧
    (∀ (r0 : Receiver) (q0 : List PortReceiveMsg) (d0 : Bool) (l : List Request)
        (r0' : Receiver) (q0' : List PortReceiveMsg),
      recv_any r0 q0 d0 = (.ok (some (.requests l)), r0', q0') → l.length ≤ r0.max_ports) := by
  refine ⟨?_, ?_, fun r0 q0 d0 l r0' q0' h => recv_any_requests_bound h⟩
  · simp only [recv_any, hfin, Bool.false_eq_true, if_false]
    simp only [recvAnyLoop]
    simp [recvAnyStep, hrec, hfin, hover, List.length_append]
  · intro hm
    have hgt : ¬ (m.length > r.max_ports) := by omega
    simp only [recv_any, hfin, Bool.false_eq_true, if_false]
    simp only [recvAnyLoop]
    simp [recvAnyStep, hgt, hfin]

/-- C6 witness at a concrete input. -/
theorem c6_max_ports_enforced_witness :
    recv_any (sampleReceiver (.requests [1, 2]) 10 2)
        [.portRequests ⟨[3], false, true⟩] false =
      (.err (.exceedsMaxPortCount (sampleReceiver (.requests [1, 2]) 10 2).max_ports),
        { sampleReceiver (.requests [1, 2]) 10 2 with receiving := .nothing }, []) ∧
    (([7] : List Request).length ≤ (sampleReceiver (.requests [1, 2]) 10 2).max_ports →
      recv_any { sampleReceiver (.requests [1, 2]) 10 2 with receiving := .nothing }
          [.portRequests ⟨[7], true, true⟩] false =
        (.ok (some (.requests [7])),
          { sampleReceiver (.requests [1, 2]) 10 2 with receiving := .nothing }, [])) ∧
    (∀ (r0 : Receiver) (q0 : List PortReceiveMsg) (d0 : Bool) (l : List Request)
        (r0' : Receiver) (q0' : List PortReceiveMsg),
      recv_any r0 q0 d0 = (.ok (some (.requests l)), r0', q0') → l.length ≤ r0.max_ports) :=
  c6_max_ports_enforced (sampleReceiver (.requests [1, 2]) 10 2) [1, 2] [3] [7] true [] []
    false rfl rfl (by decide)

/-- C7: `recv` behaves as repeated `recv_any`: it skips any number of
`Requests` results without surfacing them, and surfaces the first
non-`Requests` result as `interpRecvAny` describes — `Ok(Some(buf))` for
`Data(buf)`, `Ok(None)` for `None`, `ExceedsMaxDataSize(max_data_size)` for
`BigData` — while `max_data_size` stays the receiver's current limit. -/
theorem c7_recv_skips_requests (r : Receiver) (q : List PortReceiveMsg) (d : Bool) :
    ∃ n : Nat,
      (∀ k, k < n → ∃ l, (iterRecvAny d k r q).1 = .ok (some (.requests l))) ∧
      (∀ l, (iterRecvAny d n r q).1 ≠ .ok (some (.requests l))) ∧
      recv r q d = interpRecvAny (iterRecvAny d n r q) ∧
      (iterRecvAny d n r q).2.1.max_data_size = r.max_data_size :=
  c7_aux d q.length r q le_rfl

/-- Draining a completed chunk stream returns the buffered chunks and then
ends, without touching the inbound queue. -/
theorem drain_completed (d : Bool) :
    ∀ (cs : List Bytes) (r : Receiver) (q : List PortReceiveMsg),
      r.finished = false → r.receiving = .chunks cs true →
      drainChunks r q d = ⟨cs, .ok (), { r with receiving := .nothing }, q⟩ := by
  intro cs
  induction cs with
  | nil =>
    intro r q hfin hrec
    have h : recv_chunk r q d = (.ok none, { r with receiving := .nothing }, q) := by
      simp only [recv_chunk, hfin, Bool.false_eq_true, if_false]
      rw [recvChunkLoop_eq, hrec]
      simp [hfin]
    rw [drainChunks_none h]
  | cons c cs ih =>
    intro r q hfin hrec
    have h : recv_chunk r q d = (.ok (some c), { r with receiving := .chunks cs true }, q) := by
      simp only [recv_chunk, hfin, Bool.false_eq_true, if_false]
      rw [recvChunkLoop_eq, hrec]
      simp [hfin]
    rw [drainChunks_some h]
    rw [ih { r with receiving := .chunks cs true } q (by simp [hfin]) rfl]

/-- Draining an in-progress chunk stream with no buffered chunks consumes the
remaining continuation chunks of the message, returns them in order, and then
ends. -/
theorem drain_continuation (d : Bool) :
    ∀ (suf : List Bytes) (r : Receiver) (tail : List PortReceiveMsg),
      suf ≠ [] → r.finished = false → r.receiving = .chunks [] false →
      drainChunks r (encodeChunks suf false ++ tail) d =
        ⟨suf, .ok (), { r with receiving := .nothing }, tail⟩ := by
  intro suf
  induction suf with
  | nil => intro r tail h _ _; exact absurd rfl h
  | cons b rest ih =>
    intro r tail _hne hfin hrec
    cases rest with
    | nil =>
      have h : recv_chunk r (encodeChunks [b] false ++ tail) d =
          (.ok (some b), { r with receiving := .chunks [] true }, tail) := by
        simp only [encodeChunks, List.cons_append, List.nil_append]
        simp only [recv_chunk, hfin, Bool.false_eq_true, if_false]
        rw [recvChunkLoop_eq, hrec]
        simp [recvChunkStep, hrec, hfin]
      rw [drainChunks_some h]
      rw [drain_completed d [] { r with receiving := .chunks [] true } tail (by simp [hfin]) rfl]
    | cons b2 rest2 =>
      have h : recv_chunk r (encodeChunks (b :: b2 :: rest2) false ++ tail) d =
          (.ok (some b), { r with receiving := .chunks [] false },
            encodeChunks (b2 :: rest2) false ++ tail) := by
        simp only [encodeChunks, List.cons_append]
        simp only [recv_chunk, hfin, Bool.false_eq_true, if_false]
        rw [recvChunkLoop_eq, hrec]
        simp [recvChunkStep, hrec, hfin]
      rw [drainChunks_some h]
      rw [ih { r with receiving := .chunks [] false } tail (by simp) (by simp [hfin]) rfl]

/-- Draining an in-progress chunk stream returns first the buffered chunks
and then the remaining continuation chunks of the message. -/
theorem drain_chunks_general (d : Bool) :
    ∀ (cs suf : List Bytes) (r : Receiver) (tail : List PortReceiveMsg),
      r.finished = false → r.receiving = .chunks cs false → suf ≠ [] →
      drainChunks r (encodeChunks suf false ++ tail) d =
        ⟨cs ++ suf, .ok (), { r with receiving := .nothing }, tail⟩ := by
  intro cs
  induction cs with
  | nil =>
    intro suf r tail hfin hrec hne
    simpa using drain_continuation d suf r tail hne hfin hrec
  | cons c cs ih =>
    intro suf r tail hfin hrec hne
    have h : recv_chunk r (encodeChunks suf false ++ tail) d =
        (.ok (some c), { r with receiving := .chunks cs false },
          encodeChunks suf false ++ tail) := by
      simp only [recv_chunk, hfin, Bool.false_eq_true, if_false]
      rw [recvChunkLoop_eq, hrec]
      simp [hfin]
    rw [drainChunks_some h]
    rw [ih suf { r with receiving := .chunks cs false } tail (by simp [hfin]) rfl hne]
    rfl

/-- Processing the continuation chunks of a data message that overflows the
receiver's `max_data_size`: the `recv_any` loop accumulates chunks into the
buffer until the first chunk that overflows, then returns `BigData` with the
buffered chunks and the overflowing chunk stored, with `completed` recording
whether the overflowing chunk was the message's last chunk. -/
theorem recvAnyLoop_overflow (d : Bool) :
    ∀ (bufs : List Bytes) (r : Receiver) (db : DataBuf) (tail : List PortReceiveMsg),
      bufs ≠ [] →
      r.receiving = .data db →
      db.inv →
      r.max_data_size ≤ USIZE_MAX →
      r.max_data_size < db.remaining + sumLens bufs →
      ∃ (pre suf : List Bytes) (c : Bytes),
        bufs = pre ++ c :: suf ∧
        sumLens (db.bufs ++ pre ++ [c]) + sumLens suf = db.remaining + sumLens bufs ∧
        recvAnyLoop d r (encodeChunks bufs false ++ tail) =
          (.ok (some .bigData),
            { r with receiving := .chunks (db.bufs ++ pre ++ [c]) suf.isEmpty },
            encodeChunks suf false ++ tail) := by
  intro bufs
  induction bufs with
  | nil => intro r db tail h _ _ _ _; exact absurd rfl h
  | cons b rest ih =>
    intro r db tail _hne hrec hinv hmax hover
    have hinv2 : db.remaining = sumLens db.bufs := hinv
    cases rest with
    | nil =>
      have hov : r.max_data_size < db.remaining + b.length := by
        simp only [sumLens_cons, sumLens_nil] at hover
        omega
      have hp : db.try_push b r.max_data_size = .error b := try_push_overflow hmax hov
      refine ⟨[], [], b, rfl, ?_, ?_⟩
      · simp [sumLens_append]
        omega
      · simp only [encodeChunks, List.cons_append, List.nil_append]
        simp only [recvAnyLoop]
        simp [recvAnyStep, hrec, hp]
    | cons b2 rest2 =>
      by_cases hfit : db.remaining + b.length ≤ r.max_data_size
      · have hp := try_push_fits hmax hfit
        have hstep : recvAnyStep r (.data ⟨b, false, false⟩) =
            .next { r with receiving := .data (⟨db.bufs ++ [b], db.remaining + b.length⟩ : DataBuf) } := by
          simp [recvAnyStep, hrec, hp]
        have hinv3 : (⟨db.bufs ++ [b], db.remaining + b.length⟩ : DataBuf).inv := by
          simp [DataBuf.inv, sumLens_append]
          omega
        have hover3 :
            ({ r with receiving := .data (⟨db.bufs ++ [b], db.remaining + b.length⟩ : DataBuf) } : Receiver).max_data_size <
              (⟨db.bufs ++ [b], db.remaining + b.length⟩ : DataBuf).remaining +
                sumLens (b2 :: rest2) := by
          show r.max_data_size < db.remaining + b.length + sumLens (b2 :: rest2)
          simp only [sumLens_cons] at hover ⊢
          omega
        obtain ⟨pre, suf, c, heq, hsum, hloop⟩ :=
          ih { r with receiving := .data (⟨db.bufs ++ [b], db.remaining + b.length⟩ : DataBuf) }
            ⟨db.bufs ++ [b], db.remaining + b.length⟩ tail (by simp) rfl hinv3
            (by simpa using hmax) hover3
        refine ⟨b :: pre, suf, c, by simp [heq], ?_, ?_⟩
        · simp only [sumLens_append, sumLens_cons, sumLens_nil] at hsum ⊢
          omega
        · simp only [encodeChunks, List.cons_append]
          simp only [recvAnyLoop, hstep]
          rw [hloop]
          simp [List.append_assoc]
      · push_neg at hfit
        have hp : db.try_push b r.max_data_size = .error b := try_push_overflow hmax hfit
        refine ⟨[], b2 :: rest2, b, rfl, ?_, ?_⟩
        · simp only [sumLens_append, sumLens_cons, sumLens_nil, List.append_nil]
          omega
        · simp only [encodeChunks, List.cons_append]
          simp only [recvAnyLoop]
          simp [recvAnyStep, hrec, hp]

/-- C1: a data message totalling `K + 1` bytes received with
`max_data_size = K` makes `recv_any` return `BigData`, and the subsequent
`recv_chunk` calls return chunks whose total length is `K + 1`, followed by
`Ok(None)` once the message's last chunk has been consumed. -/
theorem c1_bigdata_then_chunk_stream (K : Nat) (bufs : List Bytes) (r : Receiver) (d : Bool)
    (hne : bufs ≠ []) (htot : sumLens bufs = K + 1)
    (hfin : r.finished = false) (hrec : r.receiving = .nothing)
    (hmax : r.max_data_size = K) (hK : K ≤ USIZE_MAX) :
    ∃ (r' : Receiver) (q' : List PortReceiveMsg),
      recv_any r (encodeData bufs) d = (.ok (some .bigData), r', q') ∧
      sumLens (drainChunks r' q' d).collected = K + 1 ∧
      (drainChunks r' q' d).outcome = .ok () ∧
      (drainChunks r' q' d).rest = [] := by
  have hmax2 : r.max_data_size ≤ USIZE_MAX := by omega
  cases bufs with
  | nil => exact absurd rfl hne
  | cons b rest =>
    cases rest with
    | nil =>
      have hb : b.length = K + 1 := by simpa using htot
      have hp : DataBuf.new.try_push b r.max_data_size = .error b :=
        try_push_overflow hmax2 (by simp [DataBuf.new]; omega)
      have heq : recv_any r (encodeData [b]) d =
          (.ok (some .bigData), { r with receiving := .chunks [b] true }, []) := by
        simp only [encodeData, encodeChunks]
        rw [recv_any_not_finished hfin]
        simp only [recvAnyLoop]
        simp [recvAnyStep, hp]
      refine ⟨_, _, heq, ?_, ?_, ?_⟩ <;>
        rw [drain_completed d [b] { r with receiving := .chunks [b] true } []
          (by simp [hfin]) rfl] <;>
        simp [hb]
    | cons b2 rest2 =>
      have hq : encodeData (b :: b2 :: rest2) =
          PortReceiveMsg.data ⟨b, true, false⟩ :: (encodeChunks (b2 :: rest2) false ++ []) := by
        simp [encodeData, encodeChunks]
      by_cases hfit : b.length ≤ K
      · have hp : DataBuf.new.try_push b r.max_data_size =
            .ok ⟨[b], b.length⟩ := by
          have := @try_push_fits DataBuf.new b r.max_data_size
            hmax2 (by simp [DataBuf.new]; omega)
          simpa [DataBuf.new] using this
        have hstep : recvAnyStep r (.data ⟨b, true, false⟩) =
            .next { r with receiving := .data ⟨[b], b.length⟩ } := by
          simp [recvAnyStep, hp]
        have hover3 :
            ({ r with receiving := .data ⟨[b], b.length⟩ } : Receiver).max_data_size <
              (⟨[b], b.length⟩ : DataBuf).remaining + sumLens (b2 :: rest2) := by
          show r.max_data_size < b.length + sumLens (b2 :: rest2)
          simp only [sumLens_cons] at htot ⊢
          omega
        obtain ⟨pre, suf, c, hsplit, hsum, hloop⟩ :=
          recvAnyLoop_overflow d (b2 :: rest2)
            { r with receiving := .data ⟨[b], b.length⟩ } ⟨[b], b.length⟩ [] (by simp) rfl
            (by simp [DataBuf.inv]) (by simpa using hmax2) hover3
        have heq : recv_any r (encodeData (b :: b2 :: rest2)) d =
            (.ok (some .bigData),
              { r with receiving := .chunks ([b] ++ pre ++ [c]) suf.isEmpty },
              encodeChunks suf false ++ []) := by
          rw [hq, recv_any_not_finished hfin]
          simp only [recvAnyLoop, hstep]
          rw [hloop]
        have hsumtot : sumLens ([b] ++ pre ++ [c]) + sumLens suf = K + 1 := by
          simp only [sumLens_append, sumLens_cons, sumLens_nil] at hsum htot ⊢
          have hsplit2 := congrArg sumLens hsplit
          simp only [sumLens_append, sumLens_cons] at hsplit2
          omega
        cases suf with
        | nil =>
          refine ⟨_, _, heq, ?_, ?_, ?_⟩ <;>
            simp only [List.isEmpty_nil, encodeChunks, List.nil_append] <;>
            rw [drain_completed d ([b] ++ pre ++ [c])
              { r with receiving := .chunks ([b] ++ pre ++ [c]) true } []
              (by simp [hfin]) rfl]
          simpa using hsumtot
        | cons s1 s2 =>
          refine ⟨_, _, heq, ?_, ?_, ?_⟩ <;>
            simp only [List.isEmpty_cons] <;>
            rw [drain_chunks_general d ([b] ++ pre ++ [c]) (s1 :: s2)
              { r with receiving := .chunks ([b] ++ pre ++ [c]) false } []
              (by simp [hfin]) rfl (by simp)]
          simp only [sumLens_append, sumLens_cons, sumLens_nil] at hsumtot ⊢
          omega
      · push_neg at hfit
        have hp : DataBuf.new.try_push b r.max_data_size = .error b :=
          try_push_overflow hmax2 (by simp [DataBuf.new]; omega)
        have heq : recv_any r (encodeData (b :: b2 :: rest2)) d =
            (.ok (some .bigData), { r with receiving := .chunks [b] false },
              encodeChunks (b2 :: rest2) false ++ []) := by
          rw [hq, recv_any_not_finished hfin]
          simp only [recvAnyLoop]
          simp [recvAnyStep, hp]
        refine ⟨_, _, heq, ?_, ?_, ?_⟩ <;>
          rw [drain_chunks_general d [b] (b2 :: rest2)
            { r with receiving := .chunks [b] false } [] (by simp [hfin]) rfl (by simp)]
        simpa using htot

/-- C1 witness at a concrete input: `K = 2` and a message of chunks
`[[5], [6, 7]]` totalling three bytes. -/
theorem c1_bigdata_then_chunk_stream_witness :
    ∃ (r' : Receiver) (q' : List PortReceiveMsg),
      recv_any (sampleReceiver .nothing 2 10) (encodeData [[5], [6, 7]]) false =
        (.ok (some .bigData), r', q') ∧
      sumLens (drainChunks r' q' false).collected = 2 + 1 ∧
      (drainChunks r' q' false).outcome = .ok () ∧
      (drainChunks r' q' false).rest = [] :=
  c1_bigdata_then_chunk_stream 2 [[5], [6, 7]] (sampleReceiver .nothing 2 10) false
    (by decide) (by decide) rfl rfl rfl (by decide)

end Chmux
